import Mathlib

/-!
Verification of the DigitalInput transition tracker and the meta callback
trampoline (Arduino/DigitalInputs). The definitions below are a shallow
embedding of src/Arduino/DigitalInputs/DigitalInput.cpp, DigitalInput.h and
meta.h. Machine integers of type uint32_t are modelled as Nat reduced
modulo 2 ^ 32 at every arithmetic step that the C code performs on them.
-/

namespace bridge

/-- Modulus of the uint32_t counters used by DigitalInput. -/
def U32 : Nat := 2 ^ 32

/-- C unsigned 32-bit subtraction `a - b` for operands already reduced
modulo `U32`, as performed by `count - syncCount` in `DigitalInput::Step`. -/
def usub32 (a b : Nat) : Nat := (a + U32 - b) % U32

/-- One handler invocation emitted by `DigitalInput::Step`: either
`function(this, state)` or `functionData(this, state, data)`.
The receiving instance is the stepped instance itself and is not repeated here. -/
inductive Event where
  | state (b : Bool)
  | stateData (b : Bool) (d : Nat)
deriving DecidableEq

/-- The logical state carried by a handler invocation. -/
def Event.getState : Event → Bool
  | .state b => b
  | .stateData b _ => b

/-- Build the event for the active handler: the code branches on
`if (function)`, calling `function` when it is non-null and `functionData`
with the stored user data otherwise. -/
def mkEvent (hasFunction : Bool) (d : Nat) (b : Bool) : Event :=
  if hasFunction then .state b else .stateData b d

/-- State of one `bridge::DigitalInput` instance. `hasFunction` records
whether the `function` field is non-null (the 2-argument handler variant is
active); `data` is the user token passed to `functionData`. The `port` and
`mask` fields of the C++ class are cached pin-addressing data consumed only
by the external `BRIDGE_READ` macro and are not part of the logical state. -/
structure DigitalInput where
  pin : Int
  hasFunction : Bool
  data : Nat
  interruptible : Bool
  asyncCount : Nat
  asyncState : Bool
  syncCount : Nat
  syncState : Bool
deriving DecidableEq

/-- Registration table of the interrupt collaborator: which interrupt ids
currently have a service routine attached.

Modelled from the spec: the hardware-abstraction collaborator of section 6
(`registerEdgeInterrupt` / `unregisterInterrupt`) is platform code outside
this repository. -/
abbrev Registry := Int → Bool

/-- Modelled from the spec: `registerEdgeInterrupt` of the section 6
collaborator contract; attaching marks the interrupt id as registered. -/
def attachInterrupt (reg : Registry) (interruptId : Int) : Registry :=
  fun j => if j = interruptId then true else reg j

/-- Modelled from the spec: `unregisterInterrupt` of the section 6
collaborator contract. The platform ignores requests carrying an invalid
(negative) interrupt id, which is what `detachInterrupt` receives from a
polling-only instance. -/
def detachInterrupt (reg : Registry) (interruptId : Int) : Registry :=
  fun j => if 0 ≤ interruptId ∧ j = interruptId then false else reg j

/-- The private delegated constructor
`DigitalInput::DigitalInput(pin, function, functionData, data)`.
`pInt` is the platform map `digitalPinToInterrupt` (non-negative exactly when
the pin has interrupt capability), `raw` the raw level `BRIDGE_READ` returns
at construction time, and `junkState`/`junkCount` stand for the indeterminate
contents of `asyncState`/`asyncCount`, which the polling-only branch leaves
uninitialized. The interrupt wiring performed through `meta::Wrap` is
modelled by marking the interrupt id as registered; the trampoline table
itself is modelled separately below. -/
def construct (pInt : Int → Int) (pin : Int) (hasFunction : Bool) (d : Nat)
    (raw : Bool) (junkState : Bool) (junkCount : Nat) (reg : Registry) :
    DigitalInput × Registry :=
  if 0 ≤ pInt pin then
    (⟨pin, hasFunction, d, true, 1, raw, 0, !raw⟩, attachInterrupt reg (pInt pin))
  else
    (⟨pin, hasFunction, d, false, junkCount, junkState, 0, !raw⟩, reg)

/-- `DigitalInput::~DigitalInput`: `detachInterrupt(digitalPinToInterrupt(pin))`,
called unconditionally. -/
def destruct (pInt : Int → Int) (s : DigitalInput) (reg : Registry) : Registry :=
  detachInterrupt reg (pInt s.pin)

/-- `DigitalInput::OnChange`: the interrupt service routine stores the raw
level it observes into `asyncState` and increments the uint32_t counter
`asyncCount`. -/
def OnChange (s : DigitalInput) (raw : Bool) : DigitalInput :=
  { s with asyncState := raw, asyncCount := (s.asyncCount + 1) % U32 }

/-- The value the loop counter `int c` of the catch-up loop contributes to
the comparison `c < change` at the i-th guard evaluation. On the AVR target
of this repository (the register layout in tools.h is AVR-specific) `int` is
a 16-bit signed type, so `c` follows the sequence 0, 1, ..., 32767, -32768,
..., -1 with period `2 ^ 16` — incrementing past 32767 is signed overflow,
undefined behavior in C++, embedded here as the de-facto two-complement wrap
the target compiler produces — and the comparison against the uint32_t
`change` converts `c` to uint32, sending a negative `c` to `2 ^ 32 + c`. -/
def cVal (i : Nat) : Nat :=
  if i < 2 ^ 15 then i else 2 ^ 32 - 2 ^ 16 + i

/-- The catch-up loop `for (int c = 0; c < change; c++)` of
`DigitalInput::Step`, iteration index `i` standing for the i-th value of the
16-bit counter: while `cVal i < change`, negate the state and invoke the
active handler with the new state. Returns the final `syncState` and the
emitted invocations in order. The structural `fuel` argument (passed as
`2 ^ 16`, one full counter period) only serves termination: for any
`change < 2 ^ 32` the guard fails at `i = 2 ^ 16 - 1` at the latest, where
`cVal i = 2 ^ 32 - 1`, so the fuel never cuts the loop short. -/
def stepGo (hasFunction : Bool) (d : Nat) (change : Nat) :
    Nat → Nat → Bool → Bool × List Event
  | 0, _, b => (b, [])
  | fuel + 1, i, b =>
    if cVal i < change then
      let r := stepGo hasFunction d change fuel (i + 1) (!b)
      (r.1, mkEvent hasFunction d (!b) :: r.2)
    else (b, [])

/-- `DigitalInput::Step`. In interrupt mode the snapshot `(state, count)` is
read atomically from the async pair and `change = count - syncCount` in
uint32_t arithmetic; in polling mode the raw level `raw` is compared against
`syncState`. When `change > 0` the catch-up loop runs and `syncCount` is set
to `count`. -/
def Step (s : DigitalInput) (raw : Bool) : DigitalInput × List Event :=
  let cc : Nat × Nat :=
    if s.interruptible then
      (s.asyncCount, usub32 s.asyncCount s.syncCount)
    else if raw = s.syncState then (s.syncCount, 0)
    else ((s.syncCount + 1) % U32, 1)
  if 0 < cc.2 then
    let r := stepGo s.hasFunction s.data cc.2 (2 ^ 16) 0 s.syncState
    ({ s with syncState := r.1, syncCount := cc.1 }, r.2)
  else (s, [])

/-- `DigitalInput::GetState`: pure read of `syncState`. -/
def GetState (s : DigitalInput) : Bool := s.syncState

/-- `DigitalInput::GetPin`: pure read of `pin`. -/
def GetPin (s : DigitalInput) : Int := s.pin

/-- One atomic operation of an interleaving: an interrupt-side update
(carrying the raw level the routine reads) or a cooperative `Step` call
(carrying the raw level a polling-mode read would return). -/
inductive Op where
  | onChange (raw : Bool)
  | step (raw : Bool)
deriving DecidableEq

/-- Apply one operation to the instance state (handler output discarded). -/
def applyOp (s : DigitalInput) : Op → DigitalInput
  | .onChange raw => OnChange s raw
  | .step raw => (Step s raw).1

/-- Run a whole interleaving of operations. -/
def run (s : DigitalInput) : List Op → DigitalInput
  | [] => s
  | op :: rest => run (applyOp s op) rest

/-- Number of interrupt-side updates in an interleaving. -/
def countOC : List Op → Nat
  | [] => 0
  | .onChange _ :: rest => countOC rest + 1
  | .step _ :: rest => countOC rest

end bridge

namespace bridge.meta

/-- `BRIDGE_MAX_WRAPPERS`, the capacity of the trampoline table `map`. -/
def BRIDGE_MAX_WRAPPERS : Nat := 8

/-- One entry of the trampoline table, `struct Map`. Callback pointers are
modelled by abstract identities: `functionData` holds the identity of the
stored parameterized callback (`none` for a null pointer), `function` the
identity of the generated zero-argument entry point `Wrapper<i>`, identified
by its template index `i` (`none` for a null pointer). -/
structure Map where
  data : Nat
  functionData : Option Nat
  function : Option Nat
deriving DecidableEq

/-- The default constructor `Map() : data(0), functionData(0), function(0)`. -/
def Map.init : Map := ⟨0, none, none⟩

/-- The single table write performed by `expansion<i>`:
`map[i].function = Wrapper<i>`. The table is modelled as a total function on
indices so that the out-of-range write the code performs can be expressed
and examined. -/
def setFunction (m : Nat → Map) (i : Nat) : Nat → Map :=
  fun j => if j = i then ⟨(m i).data, (m i).functionData, some i⟩ else m j

/-- `expansion<n>`: writes `map[n].function = Wrapper<n>` and recurses down
to the specialization `expansion<0>`, which writes `map[0]`. -/
def expansion (m : Nat → Map) : Nat → (Nat → Map)
  | 0 => setFunction m 0
  | n + 1 => expansion (setFunction m (n + 1)) n

/-- Global trampoline state: the counter `uid`, the table `map`, and whether
the function-local static `once` of `Wrap` has been initialized (that is,
whether the eager pre-generation has run). -/
structure MetaState where
  uid : Nat
  map : Nat → Map
  once : Bool

/-- Process start: `uid = 0`, all entries default-constructed, pre-generation
not yet run. -/
def initialState : MetaState := ⟨0, fun _ => Map.init, false⟩

/-- The two stores `map[uid].functionData = functionData; map[uid].data = data`
performed by `Wrap`. -/
def store (m : Nat → Map) (i : Nat) (fd : Nat) (d : Nat) : Nat → Map :=
  fun j => if j = i then ⟨d, some fd, (m i).function⟩ else m j

/-- `meta::Wrap(functionData, data)`: on the first call the static local
`once` runs `expansion<BRIDGE_MAX_WRAPPERS>()`; then the callback and token
are stored in slot `uid` and `map[uid++].function` is returned. -/
def Wrap (st : MetaState) (fd : Nat) (d : Nat) : MetaState × Option Nat :=
  let st1 := if st.once then st else ⟨st.uid, expansion st.map BRIDGE_MAX_WRAPPERS, true⟩
  let m2 := store st1.map st1.uid fd d
  (⟨st1.uid + 1, m2, true⟩, (m2 st1.uid).function)

/-- Invoking the generated entry point `Wrapper<id>` against table state
`st`: it calls `map[id].functionData(map[id].data)`. The result records
which parameterized callback is invoked and with which token; `none` models
the call through a null `functionData` pointer. -/
def Wrapper (st : MetaState) (id : Nat) : Option (Nat × Nat) :=
  match (st.map id).functionData with
  | some fd => some (fd, (st.map id).data)
  | none => none

/-- Run a sequence of registrations, collecting the returned entry points. -/
def runWraps (st : MetaState) : List (Nat × Nat) → MetaState × List (Option Nat)
  | [] => (st, [])
  | r :: rest =>
    let w := Wrap st r.1 r.2
    let rw := runWraps w.1 rest
    (rw.1, w.2 :: rw.2)

end bridge.meta

namespace bridge

theorem U32_pos : 0 < U32 := by norm_num [U32]

/-- For in-range operands with no borrow, C unsigned subtraction agrees with
truncated natural subtraction. -/
theorem usub32_eq (a b : Nat) (hba : b ≤ a) (ha : a < U32) :
    usub32 a b = a - b := by
  unfold usub32
  have h1 : a + U32 - b = U32 + (a - b) := by omega
  rw [h1, Nat.add_mod_left]
  exact Nat.mod_eq_of_lt (by omega)

/-- For `change ≤ 2 ^ 15` the loop guard is decided in the region where the
16-bit counter equals the iteration index, so the loop behaves like a plain
`change`-fold iteration: with `k` iterations left from index `i`, it returns
the state negated `k` times and one event per remaining unit. -/
theorem stepGo_small (hf : Bool) (d : Nat) (change : Nat) (hch : change ≤ 2 ^ 15) :
    ∀ (k fuel i : Nat) (b : Bool), i + k = change → k < fuel →
      stepGo hf d change fuel i b =
        (Bool.not^[k] b, (List.range k).map (fun j => mkEvent hf d (Bool.not^[j + 1] b))) := by
  intro k
  induction k with
  | zero =>
    intro fuel i b hik hkf
    cases fuel with
    | zero => exact absurd hkf (by omega)
    | succ f =>
      have hguard : ¬ cVal i < change := by
        unfold cVal
        by_cases hi2 : i < 2 ^ 15
        · rw [if_pos hi2]
          omega
        · rw [if_neg hi2]
          omega
      show (if cVal i < change then _ else (b, [])) = _
      rw [if_neg hguard]
      simp
  | succ k ih =>
    intro fuel i b hik hkf
    cases fuel with
    | zero => exact absurd hkf (by omega)
    | succ f =>
      have hguard : cVal i < change := by
        unfold cVal
        rw [if_pos (by omega)]
        omega
      show (if cVal i < change then
          ((stepGo hf d change f (i + 1) (!b)).1,
            mkEvent hf d (!b) :: (stepGo hf d change f (i + 1) (!b)).2)
        else (b, [])) = _
      rw [if_pos hguard, ih f (i + 1) (!b) (by omega) (by omega)]
      refine congrArg₂ Prod.mk ?_ ?_
      · rw [Function.iterate_succ_apply]
      · rw [List.range_succ_eq_map, List.map_cons, List.map_map]
        have hfun : (fun j => mkEvent hf d (Bool.not^[j + 1] (!b)))
            = (fun j => mkEvent hf d (Bool.not^[j + 1] b)) ∘ Nat.succ := by
          funext j
          simp [Function.comp, Function.iterate_succ_apply]
        rw [hfun]
        simp

/-- For `2 ^ 15 < change ≤ 2 ^ 32 - 2 ^ 15` the loop exits as soon as the
16-bit counter wraps negative (converted value `2 ^ 32 - 2 ^ 15` or larger),
so only `2 ^ 15` of the `change` pending units are replayed: with the index
still below the wrap point, `2 ^ 15 - i` iterations remain. -/
theorem stepGo_mid_len (hf : Bool) (d : Nat) (change : Nat)
    (h1 : 2 ^ 15 < change) (h2 : change ≤ 2 ^ 32 - 2 ^ 15) :
    ∀ (k fuel i : Nat) (b : Bool), i + k = 2 ^ 15 → k < fuel →
      (stepGo hf d change fuel i b).2.length = k := by
  intro k
  induction k with
  | zero =>
    intro fuel i b hik hkf
    cases fuel with
    | zero => exact absurd hkf (by omega)
    | succ f =>
      have hguard : ¬ cVal i < change := by
        unfold cVal
        rw [if_neg (by omega)]
        omega
      show (if cVal i < change then _ else (b, [])).2.length = 0
      rw [if_neg hguard]
      rfl
  | succ k ih =>
    intro fuel i b hik hkf
    cases fuel with
    | zero => exact absurd hkf (by omega)
    | succ f =>
      have hguard : cVal i < change := by
        unfold cVal
        rw [if_pos (by omega)]
        omega
      show (if cVal i < change then
          ((stepGo hf d change f (i + 1) (!b)).1,
            mkEvent hf d (!b) :: (stepGo hf d change f (i + 1) (!b)).2)
        else (b, [])).2.length = k + 1
      rw [if_pos hguard]
      show (stepGo hf d change f (i + 1) (!b)).2.length + 1 = k + 1
      rw [ih f (i + 1) (!b) (by omega) (by omega)]

/-- Characterization of `Step` in interrupt-driven mode, for states whose
counters satisfy the reachable-state bounds and whose pending difference does
not overflow the 16-bit loop counter. -/
theorem Step_interrupt (s : DigitalInput) (raw : Bool)
    (hi : s.interruptible = true) (ha : s.asyncCount < U32)
    (hs : s.syncCount ≤ s.asyncCount)
    (hn15 : s.asyncCount - s.syncCount ≤ 2 ^ 15) :
    Step s raw =
      ({ s with syncState := Bool.not^[s.asyncCount - s.syncCount] s.syncState,
                syncCount := s.asyncCount },
       (List.range (s.asyncCount - s.syncCount)).map
         (fun i => mkEvent s.hasFunction s.data (Bool.not^[i + 1] s.syncState))) := by
  have hc : usub32 s.asyncCount s.syncCount = s.asyncCount - s.syncCount :=
    usub32_eq _ _ hs ha
  rcases Nat.eq_zero_or_pos (s.asyncCount - s.syncCount) with h0 | hpos
  · have heq : s.asyncCount = s.syncCount := by omega
    have hrhs : ({ s with
        syncState := Bool.not^[s.asyncCount - s.syncCount] s.syncState,
        syncCount := s.asyncCount } : DigitalInput) = s := by
      rw [h0]
      nth_rewrite 2 [heq]
      rfl
    rw [hrhs, h0]
    unfold Step
    rw [hi, hc, h0]
    rfl
  · unfold Step
    rw [hi]
    simp only [if_true, hc]
    rw [if_pos hpos,
      stepGo_small s.hasFunction s.data (s.asyncCount - s.syncCount) hn15
        (s.asyncCount - s.syncCount) (2 ^ 16) 0 s.syncState (by omega) (by omega)]

/-- `Step` in polling-only mode when the raw level matches `syncState`:
complete no-op. -/
theorem Step_polling_eq (s : DigitalInput) (raw : Bool)
    (hi : s.interruptible = false) (h : raw = s.syncState) :
    Step s raw = (s, []) := by
  unfold Step
  rw [hi]
  simp [h]

/-- `Step` in polling-only mode when the raw level differs from `syncState`:
exactly one invocation carrying the raw level. -/
theorem Step_polling_ne (s : DigitalInput) (raw : Bool)
    (hi : s.interruptible = false) (h : ¬ raw = s.syncState) :
    Step s raw =
      ({ s with syncState := raw, syncCount := (s.syncCount + 1) % U32 },
       [mkEvent s.hasFunction s.data raw]) := by
  have hb : (!s.syncState) = raw := by
    cases hr : raw <;> cases hss : s.syncState <;> simp_all
  unfold Step
  rw [hi, if_neg h, ← hb]
  rfl

/-- `Step` writes only `syncState` and `syncCount`: the async pair, handler
fields and identity fields are untouched, whatever the loop does. -/
theorem Step_fields (s : DigitalInput) (raw : Bool) :
    (Step s raw).1.asyncCount = s.asyncCount ∧
    (Step s raw).1.asyncState = s.asyncState ∧
    (Step s raw).1.interruptible = s.interruptible ∧
    (Step s raw).1.hasFunction = s.hasFunction ∧
    (Step s raw).1.data = s.data ∧
    (Step s raw).1.pin = s.pin := by
  refine ⟨?_, ?_, ?_, ?_, ?_, ?_⟩ <;>
    · simp only [Step]
      repeat' split
      all_goals rfl

/-- In interrupt mode `syncCount` equals the snapshot `asyncCount` after any
`Step`, independently of how many loop iterations actually ran, because the
assignment `syncCount = count` happens after the loop. -/
theorem Step_interrupt_syncCount (s : DigitalInput) (raw : Bool)
    (hi : s.interruptible = true) (ha : s.asyncCount < U32)
    (hs : s.syncCount ≤ s.asyncCount) :
    (Step s raw).1.syncCount = s.asyncCount := by
  have hc : usub32 s.asyncCount s.syncCount = s.asyncCount - s.syncCount :=
    usub32_eq _ _ hs ha
  unfold Step
  rw [hi]
  simp only [if_true, hc]
  rcases Nat.eq_zero_or_pos (s.asyncCount - s.syncCount) with h0 | hpos
  · rw [h0, if_neg (Nat.lt_irrefl 0)]
    show s.syncCount = s.asyncCount
    omega
  · rw [if_pos hpos]

/-- In interrupt mode with pending units, the emitted invocations are
exactly what the bounded-counter loop produces. -/
theorem Step_interrupt_events (s : DigitalInput) (raw : Bool)
    (hi : s.interruptible = true) (ha : s.asyncCount < U32)
    (hs : s.syncCount ≤ s.asyncCount) (hpos : 0 < s.asyncCount - s.syncCount) :
    (Step s raw).2 =
      (stepGo s.hasFunction s.data (s.asyncCount - s.syncCount) (2 ^ 16) 0 s.syncState).2 := by
  have hc : usub32 s.asyncCount s.syncCount = s.asyncCount - s.syncCount :=
    usub32_eq _ _ hs ha
  unfold Step
  rw [hi]
  simp only [if_true, hc]
  rw [if_pos hpos]

/-- With a backlog in the range `(2 ^ 15, 2 ^ 32 - 2 ^ 15]`, a `Step` in
interrupt mode invokes the handler exactly `2 ^ 15` times: the overflowing
16-bit loop counter cuts the replay short. -/
theorem Step_interrupt_length_mid (s : DigitalInput) (raw : Bool)
    (hi : s.interruptible = true) (ha : s.asyncCount < U32)
    (hs : s.syncCount ≤ s.asyncCount)
    (h1 : 2 ^ 15 < s.asyncCount - s.syncCount)
    (h2 : s.asyncCount - s.syncCount ≤ 2 ^ 32 - 2 ^ 15) :
    (Step s raw).2.length = 2 ^ 15 := by
  rw [Step_interrupt_events s raw hi ha hs (by omega)]
  exact stepGo_mid_len s.hasFunction s.data _ h1 h2 (2 ^ 15) (2 ^ 16) 0
    s.syncState (by omega) (by omega)

theorem construct_interrupt (pInt : Int → Int) (pin : Int) (hf : Bool) (d : Nat)
    (raw js : Bool) (jc : Nat) (reg : Registry) (h : 0 ≤ pInt pin) :
    construct pInt pin hf d raw js jc reg =
      (⟨pin, hf, d, true, 1, raw, 0, !raw⟩, attachInterrupt reg (pInt pin)) := by
  unfold construct
  rw [if_pos h]

theorem construct_polling (pInt : Int → Int) (pin : Int) (hf : Bool) (d : Nat)
    (raw js : Bool) (jc : Nat) (reg : Registry) (h : ¬ 0 ≤ pInt pin) :
    construct pInt pin hf d raw js jc reg =
      (⟨pin, hf, d, false, jc, js, 0, !raw⟩, reg) := by
  unfold construct
  rw [if_neg h]

theorem mkEvent_getState (hf : Bool) (d : Nat) (b : Bool) :
    (mkEvent hf d b).getState = b := by
  unfold mkEvent
  cases hf <;> rfl

/-- C1 amended: in interrupt-driven mode, a `Step` from a state with
`n = asyncCount - syncCount > 0` pending units, provided `n ≤ 2 ^ 15` (a
larger backlog overflows the 16-bit loop counter and is replayed only
partially), emits exactly `n` handler invocations, the i-th (1-based)
carrying the pre-Step `syncState` negated i times, each recomputed by pure
negation; afterwards `syncState` is the pre-Step `syncState` negated `n`
times and `syncCount` equals the snapshot count. -/
theorem C1_step_catchup (s : DigitalInput) (raw : Bool) (n : Nat)
    (hi : s.interruptible = true) (ha : s.asyncCount < U32)
    (hn : s.asyncCount - s.syncCount = n) (hpos : 0 < n)
    (hn15 : n ≤ 2 ^ 15) :
    (Step s raw).2.length = n ∧
    (Step s raw).2 =
      (List.range n).map (fun i => mkEvent s.hasFunction s.data (Bool.not^[i + 1] s.syncState)) ∧
    (Step s raw).1.syncState = Bool.not^[n] s.syncState ∧
    (Step s raw).1.syncCount = s.asyncCount := by
  have hs : s.syncCount ≤ s.asyncCount := by omega
  rw [Step_interrupt s raw hi ha hs (by omega), hn]
  refine ⟨?_, rfl, rfl, rfl⟩
  simp

/-- Witness for C1 at a concrete state with two pending transitions. -/
theorem C1_step_catchup_witness :
    (Step ⟨2, true, 0, true, 3, true, 1, false⟩ false).2.length = 2 ∧
    (Step ⟨2, true, 0, true, 3, true, 1, false⟩ false).2 =
      (List.range 2).map (fun i => mkEvent true 0 (Bool.not^[i + 1] false)) ∧
    (Step ⟨2, true, 0, true, 3, true, 1, false⟩ false).1.syncState = Bool.not^[2] false ∧
    (Step ⟨2, true, 0, true, 3, true, 1, false⟩ false).1.syncCount = 3 :=
  C1_step_catchup ⟨2, true, 0, true, 3, true, 1, false⟩ false 2 rfl
    (by norm_num [U32]) rfl (by norm_num) (by norm_num)

/-- C7: constructing in interrupt-driven mode sets `asyncCount = 1`, stores
the raw level in `asyncState`, sets `syncState` to its negation, and the
first reconciliation (with no physical edges in between) reports exactly one
transition carrying the true starting raw level. -/
theorem C7_first_report (pInt : Int → Int) (pin : Int) (hf : Bool) (d : Nat)
    (raw js : Bool) (jc : Nat) (reg : Registry) (h : 0 ≤ pInt pin) :
    ((construct pInt pin hf d raw js jc reg).1.asyncCount = 1 ∧
     (construct pInt pin hf d raw js jc reg).1.asyncState = raw ∧
     (construct pInt pin hf d raw js jc reg).1.syncState =
       !(construct pInt pin hf d raw js jc reg).1.asyncState) ∧
    (Step (construct pInt pin hf d raw js jc reg).1 raw).2 = [mkEvent hf d raw] ∧
    ((Step (construct pInt pin hf d raw js jc reg).1 raw).2.map Event.getState = [raw]) := by
  rw [construct_interrupt pInt pin hf d raw js jc reg h]
  refine ⟨⟨rfl, rfl, rfl⟩, ?_, ?_⟩ <;>
    · rw [Step_interrupt _ raw rfl (by norm_num [U32]) (by norm_num) (by norm_num)]
      simp [mkEvent_getState, List.range_succ]

/-- Witness for C7 on a concrete interrupt-capable pin. -/
theorem C7_first_report_witness :
    ((construct (fun _ => 0) 2 true 0 true false 0 (fun _ => false)).1.asyncCount = 1 ∧
     (construct (fun _ => 0) 2 true 0 true false 0 (fun _ => false)).1.asyncState = true ∧
     (construct (fun _ => 0) 2 true 0 true false 0 (fun _ => false)).1.syncState =
       !(construct (fun _ => 0) 2 true 0 true false 0 (fun _ => false)).1.asyncState) ∧
    (Step (construct (fun _ => 0) 2 true 0 true false 0 (fun _ => false)).1 true).2 =
      [mkEvent true 0 true] ∧
    ((Step (construct (fun _ => 0) 2 true 0 true false 0 (fun _ => false)).1 true).2.map
        Event.getState = [true]) :=
  C7_first_report (fun _ => 0) 2 true 0 true false 0 (fun _ => false) (by norm_num)

theorem foldl_OnChange_syncState :
    ∀ (rs : List Bool) (s : DigitalInput),
      (List.foldl OnChange s rs).syncState = s.syncState := by
  intro rs
  induction rs with
  | nil => intro s; rfl
  | cons r rest ih => intro s; exact ih (OnChange s r)

theorem ne_not_self (b : Bool) : ¬ b = !b := by
  cases b <;> simp

/-- C10: in either capture mode, `GetState` between construction and the
first `Step` returns the negation of the construction-time raw level (the
opposite of the physical state, even across interrupt-side updates); only
after the first `Step` (with the line unchanged) does it return the actual
level. -/
theorem C10_getstate_inverted (pInt : Int → Int) (pin : Int) (hf : Bool) (d : Nat)
    (raw js : Bool) (jc : Nat) (reg : Registry) :
    GetState (construct pInt pin hf d raw js jc reg).1 = !raw ∧
    (∀ rs : List Bool,
      GetState (List.foldl OnChange (construct pInt pin hf d raw js jc reg).1 rs) = !raw) ∧
    GetState (Step (construct pInt pin hf d raw js jc reg).1 raw).1 = raw := by
  by_cases h : 0 ≤ pInt pin
  · rw [construct_interrupt pInt pin hf d raw js jc reg h]
    refine ⟨rfl, ?_, ?_⟩
    · intro rs
      rw [GetState, foldl_OnChange_syncState]
    · rw [GetState, Step_interrupt _ raw rfl (by norm_num [U32]) (by norm_num) (by norm_num)]
      simp
  · rw [construct_polling pInt pin hf d raw js jc reg h]
    refine ⟨rfl, ?_, ?_⟩
    · intro rs
      rw [GetState, foldl_OnChange_syncState]
    · rw [GetState, Step_polling_ne _ raw rfl (by exact ne_not_self raw)]

/-- C2 counterexample: on an interrupt-capable pin whose initial raw level is
low, the single invocation produced by the first `Step` carries low — the raw
level itself — not its negation as the claim states. -/
theorem C2_cex :
    ¬ ((Step (construct (fun _ => 0) 2 true 0 false false 0 (fun _ => false)).1 false).2.map
        Event.getState = [!false]) := by decide

/-- C2 amended: for every pin and initial raw level, in either capture mode,
construction followed by a first `Step` with zero physical edges produces
exactly one handler invocation, and the state it carries is the initial raw
level itself (the negation of the initialized `syncState`). -/
theorem C2_amended_first_report (pInt : Int → Int) (pin : Int) (hf : Bool) (d : Nat)
    (raw js : Bool) (jc : Nat) (reg : Registry) :
    (Step (construct pInt pin hf d raw js jc reg).1 raw).2 = [mkEvent hf d raw] ∧
    ((Step (construct pInt pin hf d raw js jc reg).1 raw).2.map Event.getState = [raw]) := by
  by_cases h : 0 ≤ pInt pin
  · rw [construct_interrupt pInt pin hf d raw js jc reg h,
      Step_interrupt _ raw rfl (by norm_num [U32]) (by norm_num) (by norm_num)]
    constructor
    · simp [List.range_succ]
    · simp [mkEvent_getState, List.range_succ]
  · rw [construct_polling pInt pin hf d raw js jc reg h,
      Step_polling_ne _ raw rfl (ne_not_self raw)]
    exact ⟨rfl, by simp [mkEvent_getState]⟩

theorem run_replicate_onChange :
    ∀ (k : Nat) (s : DigitalInput) (r : Bool), s.asyncCount < U32 →
      (run s (List.replicate k (Op.onChange r))).asyncCount = (s.asyncCount + k) % U32 := by
  intro k
  induction k with
  | zero =>
    intro s r h
    show s.asyncCount = (s.asyncCount + 0) % U32
    rw [Nat.add_zero, Nat.mod_eq_of_lt h]
  | succ k ih =>
    intro s r h
    show (run (OnChange s r) (List.replicate k (Op.onChange r))).asyncCount = _
    rw [ih (OnChange s r) r (Nat.mod_lt _ U32_pos)]
    show ((s.asyncCount + 1) % U32 + k) % U32 = _
    rw [Nat.mod_add_mod]
    congr 1
    omega

/-- Replicated interrupt-side updates touch only the async pair: the
consumer-owned fields and the handler fields are preserved. -/
theorem run_replicate_onChange_pre :
    ∀ (k : Nat) (r : Bool) (s : DigitalInput),
      (run s (List.replicate k (Op.onChange r))).syncCount = s.syncCount ∧
      (run s (List.replicate k (Op.onChange r))).syncState = s.syncState ∧
      (run s (List.replicate k (Op.onChange r))).interruptible = s.interruptible ∧
      (run s (List.replicate k (Op.onChange r))).hasFunction = s.hasFunction ∧
      (run s (List.replicate k (Op.onChange r))).data = s.data := by
  intro k
  induction k with
  | zero => intro r s; exact ⟨rfl, rfl, rfl, rfl, rfl⟩
  | succ k ih => intro r s; exact ih r (OnChange s r)

/-- C1 counterexample: from construction, one `Step` and then 32769
interrupt-side updates reach a state whose pending difference is
`n = asyncCount - syncCount = 32769 > 0`, yet the next `Step` invokes the
handler only 32768 times — the 16-bit loop counter overflows and the backlog
is replayed only partially, refuting the exactly-n-invocations claim. -/
theorem C1_cex :
    ¬ ((Step (run (Step (construct (fun _ => 0) 2 true 0 false false 0
            (fun _ => false)).1 false).1 (List.replicate 32769 (Op.onChange true)))
          false).2.length =
        (run (Step (construct (fun _ => 0) 2 true 0 false false 0
            (fun _ => false)).1 false).1
          (List.replicate 32769 (Op.onChange true))).asyncCount -
        (run (Step (construct (fun _ => 0) 2 true 0 false false 0
            (fun _ => false)).1 false).1
          (List.replicate 32769 (Op.onChange true))).syncCount) := by
  have hs1 : (Step (construct (fun _ => 0) 2 true 0 false false 0
      (fun _ => false)).1 false).1 = (⟨2, true, 0, true, 1, false, 1, false⟩ : DigitalInput) := by
    decide
  rw [hs1]
  have hpre := run_replicate_onChange_pre 32769 true ⟨2, true, 0, true, 1, false, 1, false⟩
  have ha : (run (⟨2, true, 0, true, 1, false, 1, false⟩ : DigitalInput)
      (List.replicate 32769 (Op.onChange true))).asyncCount = 32770 := by
    rw [run_replicate_onChange 32769 _ true (by decide)]
    decide
  have hsc : (run (⟨2, true, 0, true, 1, false, 1, false⟩ : DigitalInput)
      (List.replicate 32769 (Op.onChange true))).syncCount = 1 := hpre.1
  have hii : (run (⟨2, true, 0, true, 1, false, 1, false⟩ : DigitalInput)
      (List.replicate 32769 (Op.onChange true))).interruptible = true := hpre.2.2.1
  have hlen : (Step (run (⟨2, true, 0, true, 1, false, 1, false⟩ : DigitalInput)
      (List.replicate 32769 (Op.onChange true))) false).2.length = 2 ^ 15 :=
    Step_interrupt_length_mid _ false hii (by rw [ha]; decide)
      (by rw [ha, hsc]; omega) (by rw [ha, hsc]; omega) (by rw [ha, hsc]; omega)
  rw [hlen, ha, hsc]
  omega

/-- C8 amended: every interrupt-side update stores the observed raw level in
`asyncState` and increments the uint32_t counter `asyncCount` by one modulo
`2 ^ 32`, regardless of whether the level differs from the stored one, and
leaves every other field unchanged. -/
theorem C8_onchange_unconditional (s : DigitalInput) (raw : Bool) :
    (OnChange s raw).asyncState = raw ∧
    (OnChange s raw).asyncCount = (s.asyncCount + 1) % U32 ∧
    (OnChange s raw).syncState = s.syncState ∧
    (OnChange s raw).syncCount = s.syncCount ∧
    (OnChange s raw).hasFunction = s.hasFunction ∧
    (OnChange s raw).data = s.data ∧
    (OnChange s raw).interruptible = s.interruptible ∧
    (OnChange s raw).pin = s.pin :=
  ⟨rfl, rfl, rfl, rfl, rfl, rfl, rfl, rfl⟩

/-- C8 counterexample: at the reachable state whose counter holds
`2 ^ 32 - 1`, one more interrupt-side update wraps `asyncCount` to `0`
instead of incrementing it by exactly one. -/
theorem C8_cex :
    ¬ ((OnChange (run (construct (fun _ => 0) 2 true 0 false false 0 (fun _ => false)).1
          (List.replicate (U32 - 2) (Op.onChange true))) true).asyncCount =
        (run (construct (fun _ => 0) 2 true 0 false false 0 (fun _ => false)).1
          (List.replicate (U32 - 2) (Op.onChange true))).asyncCount + 1) := by
  have h1 : (run (construct (fun _ => 0) 2 true 0 false false 0 (fun _ => false)).1
      (List.replicate (U32 - 2) (Op.onChange true))).asyncCount = U32 - 1 := by
    rw [run_replicate_onChange _ _ _ (by decide)]
    decide
  have h2 : ∀ t : DigitalInput, (OnChange t true).asyncCount = (t.asyncCount + 1) % U32 :=
    fun t => rfl
  rw [h2, h1]
  decide

/-- C6 counterexample: on a polling-only line constructed at a low level and
already synchronized by a first poll, a burst of two toggles between two
polls leaves the raw level low again, so the second poll produces zero
callbacks — not the single coalesced "high" callback the claim states. -/
theorem C6_cex :
    ¬ ((Step (Step (construct (fun _ => -1) 2 true 0 false false 0
          (fun _ => false)).1 false).1 false).2.map Event.getState = [true]) := by
  decide

/-- C6 amended: a polling-only `Step` yields at most one invocation — none
when the raw level equals `syncState` (with no field changed), exactly one
carrying the raw level otherwise, with `syncCount` incremented by one modulo
`2 ^ 32`. Consequently a two-toggle burst between two polls on a
polling-only line that started low yields zero callbacks (the even burst
cancels and is dropped), while the same burst on an interrupt-driven line
yields two callbacks, high then low, in that order. -/
theorem C6_polling_coalesce :
    (∀ (s : DigitalInput) (raw : Bool), s.interruptible = false →
      (raw = s.syncState → Step s raw = (s, [])) ∧
      (¬ raw = s.syncState →
        (Step s raw).2 = [mkEvent s.hasFunction s.data raw] ∧
        (Step s raw).1 = { s with
          syncState := raw, syncCount := (s.syncCount + 1) % U32 })) ∧
    ((Step (Step (construct (fun _ => -1) 2 true 0 false false 0
        (fun _ => false)).1 false).1 false).2 = []) ∧
    ((Step (OnChange (OnChange (Step (construct (fun _ => 0) 2 true 0 false false 0
        (fun _ => false)).1 false).1 true) false) false).2.map Event.getState =
      [true, false]) := by
  refine ⟨?_, by decide, by decide⟩
  intro s raw hi
  exact ⟨fun h => Step_polling_eq s raw hi h,
    fun h => by rw [Step_polling_ne s raw hi h]; exact ⟨rfl, rfl⟩⟩

/-- Witness for C6 at a concrete polling-only state in both branches. -/
theorem C6_polling_coalesce_witness :
    Step ⟨2, true, 0, false, 0, false, 5, true⟩ true = (⟨2, true, 0, false, 0, false, 5, true⟩, []) ∧
    (Step ⟨2, true, 0, false, 0, false, 5, true⟩ false).2 = [mkEvent true 0 false] :=
  ⟨(C6_polling_coalesce.1 ⟨2, true, 0, false, 0, false, 5, true⟩ true rfl).1 rfl,
   ((C6_polling_coalesce.1 ⟨2, true, 0, false, 0, false, 5, true⟩ false rfl).2
      (by decide)).1⟩

theorem countOC_append : ∀ (p q : List Op), countOC (p ++ q) = countOC p + countOC q := by
  intro p q
  induction p with
  | nil => simp [countOC]
  | cons op rest ih =>
    cases op with
    | onChange r =>
      show countOC (rest ++ q) + 1 = countOC rest + 1 + countOC q
      omega
    | step r =>
      show countOC (rest ++ q) = countOC rest + countOC q
      exact ih

theorem run_append : ∀ (p q : List Op) (s : DigitalInput),
    run s (p ++ q) = run (run s p) q := by
  intro p
  induction p with
  | nil => intro q s; rfl
  | cons op rest ih => intro q s; exact ih q (applyOp s op)

/-- Invariant of interrupt-driven instances along an interleaving whose
interrupt-side updates cannot wrap the counter. -/
theorem run_inv : ∀ (ops : List Op) (s : DigitalInput),
    s.interruptible = true → s.syncCount ≤ s.asyncCount →
    s.asyncCount + countOC ops < U32 →
    (run s ops).interruptible = true ∧
    (run s ops).syncCount ≤ (run s ops).asyncCount ∧
    (run s ops).asyncCount = s.asyncCount + countOC ops := by
  intro ops
  induction ops with
  | nil =>
    intro s hi hs _
    exact ⟨hi, hs, by simp [countOC, run]⟩
  | cons op rest ih =>
    intro s hi hs hb
    cases op with
    | onChange r =>
      have hcnt : countOC (Op.onChange r :: rest) = countOC rest + 1 := rfl
      have ha1 : (OnChange s r).asyncCount = s.asyncCount + 1 := by
        show (s.asyncCount + 1) % U32 = s.asyncCount + 1
        rw [Nat.mod_eq_of_lt (by omega)]
      have hsy : (OnChange s r).syncCount = s.syncCount := rfl
      have h := ih (OnChange s r) hi (by rw [hsy, ha1]; omega) (by rw [ha1]; omega)
      refine ⟨h.1, h.2.1, ?_⟩
      rw [show run s (Op.onChange r :: rest) = run (OnChange s r) rest from rfl,
        h.2.2, ha1, hcnt]
      omega
    | step r =>
      have hcnt : countOC (Op.step r :: rest) = countOC rest := rfl
      have ha : s.asyncCount < U32 := by omega
      have h1 : (Step s r).1.interruptible = true := by
        rw [(Step_fields s r).2.2.1]
        exact hi
      have h2 : (Step s r).1.syncCount = s.asyncCount :=
        Step_interrupt_syncCount s r hi ha hs
      have h3 : (Step s r).1.asyncCount = s.asyncCount := (Step_fields s r).1
      have h := ih (Step s r).1 h1 (by rw [h2, h3]) (by rw [h3]; omega)
      refine ⟨h.1, h.2.1, ?_⟩
      rw [show run s (Op.step r :: rest) = run (Step s r).1 rest from rfl, h.2.2, h3, hcnt]

/-- C5 amended: for an interrupt-driven instance, under any interleaving of
interrupt-side updates and `Step` calls totalling fewer than `2 ^ 32 - 1`
interrupt-side updates (so the uint32_t counter cannot wrap, and noting that
a polling-only instance leaves the async pair uninitialized), every reachable
state satisfies `syncCount ≤ asyncCount`, each single further operation
leaves both counters non-decreasing, and immediately after any `Step` call
`syncCount` equals the `asyncCount` captured in the snapshot of that call. -/
theorem C5_counters_invariant (pInt : Int → Int) (pin : Int) (hf : Bool) (d : Nat)
    (raw js : Bool) (jc : Nat) (reg : Registry) (ops : List Op)
    (hcap : 0 ≤ pInt pin) (hbound : countOC ops + 1 < U32) :
    ∀ p q : List Op, ops = p ++ q →
      ((run (construct pInt pin hf d raw js jc reg).1 p).syncCount ≤
        (run (construct pInt pin hf d raw js jc reg).1 p).asyncCount) ∧
      (∀ (op : Op) (r : List Op), q = op :: r →
        ((run (construct pInt pin hf d raw js jc reg).1 p).asyncCount ≤
          (run (construct pInt pin hf d raw js jc reg).1 (p ++ [op])).asyncCount) ∧
        ((run (construct pInt pin hf d raw js jc reg).1 p).syncCount ≤
          (run (construct pInt pin hf d raw js jc reg).1 (p ++ [op])).syncCount) ∧
        (∀ rl : Bool, op = Op.step rl →
          (run (construct pInt pin hf d raw js jc reg).1 (p ++ [op])).syncCount =
            (run (construct pInt pin hf d raw js jc reg).1 p).asyncCount)) := by
  intro p q hpq
  have e0 : (construct pInt pin hf d raw js jc reg).1
      = (⟨pin, hf, d, true, 1, raw, 0, !raw⟩ : DigitalInput) := by
    rw [construct_interrupt pInt pin hf d raw js jc reg hcap]
  rw [e0]
  have hc_eq : countOC p + countOC q = countOC ops := by
    rw [hpq, countOC_append]
  have hinv := run_inv p ⟨pin, hf, d, true, 1, raw, 0, !raw⟩ rfl
    (by show (0 : Nat) ≤ 1; omega)
    (by show 1 + countOC p < U32; omega)
  refine ⟨hinv.2.1, ?_⟩
  intro op r hqr
  have hq1 : countOC q = countOC (op :: r) := by rw [hqr]
  have happ : run (⟨pin, hf, d, true, 1, raw, 0, !raw⟩ : DigitalInput) (p ++ [op])
      = applyOp (run (⟨pin, hf, d, true, 1, raw, 0, !raw⟩ : DigitalInput) p) op := by
    rw [run_append]
    rfl
  rw [happ]
  set t := run (⟨pin, hf, d, true, 1, raw, 0, !raw⟩ : DigitalInput) p with ht
  have ht_a : t.asyncCount = 1 + countOC p := hinv.2.2
  have ht_s : t.syncCount ≤ t.asyncCount := hinv.2.1
  have ht_i : t.interruptible = true := hinv.1
  cases op with
  | onChange rr =>
    have hc2 : countOC (Op.onChange rr :: r) = countOC r + 1 := rfl
    have hb1 : t.asyncCount + 1 < U32 := by
      rw [ht_a]
      omega
    have ha1 : (OnChange t rr).asyncCount = t.asyncCount + 1 := by
      show (t.asyncCount + 1) % U32 = t.asyncCount + 1
      exact Nat.mod_eq_of_lt hb1
    refine ⟨?_, ?_, ?_⟩
    · show t.asyncCount ≤ (OnChange t rr).asyncCount
      rw [ha1]
      omega
    · show t.syncCount ≤ (OnChange t rr).syncCount
      exact le_rfl
    · intro rl hop
      exact absurd hop (by simp)
  | step rr =>
    have hlt : t.asyncCount < U32 := by
      rw [ht_a]
      omega
    have h2 : (Step t rr).1.syncCount = t.asyncCount :=
      Step_interrupt_syncCount t rr ht_i hlt ht_s
    have h3 : (Step t rr).1.asyncCount = t.asyncCount := (Step_fields t rr).1
    refine ⟨?_, ?_, ?_⟩
    · show t.asyncCount ≤ (Step t rr).1.asyncCount
      rw [h3]
    · show t.syncCount ≤ (Step t rr).1.syncCount
      rw [h2]
      exact ht_s
    · intro rl hop
      show (Step t rr).1.syncCount = t.asyncCount
      exact h2

/-- Witness for C5 on a concrete two-operation interleaving. -/
theorem C5_counters_invariant_witness :
    (run (construct (fun _ => 0) 2 true 0 false false 0 (fun _ => false)).1
        [Op.onChange true]).syncCount ≤
    (run (construct (fun _ => 0) 2 true 0 false false 0 (fun _ => false)).1
        [Op.onChange true]).asyncCount :=
  (C5_counters_invariant (fun _ => 0) 2 true 0 false false 0 (fun _ => false)
    [Op.onChange true, Op.step true] (by norm_num) (by decide)
    [Op.onChange true] [Op.step true] rfl).1

/-- C5 counterexample: after `2 ^ 32 - 2` interrupt-side updates from
construction the counter holds `2 ^ 32 - 1`; one more update wraps it to
`0`, so `asyncCount` is not monotonically non-decreasing over the lifetime. -/
theorem C5_cex :
    ¬ ((run (construct (fun _ => 0) 2 true 0 false false 0 (fun _ => false)).1
          (List.replicate (U32 - 2) (Op.onChange true))).asyncCount ≤
        (run (construct (fun _ => 0) 2 true 0 false false 0 (fun _ => false)).1
          (List.replicate (U32 - 2) (Op.onChange true) ++ [Op.onChange true])).asyncCount) := by
  have hrep : List.replicate (U32 - 2) (Op.onChange true) ++ [Op.onChange true]
      = List.replicate (U32 - 1) (Op.onChange true) := by
    rw [← List.replicate_succ']
    congr 1
  have h1 : (run (construct (fun _ => 0) 2 true 0 false false 0 (fun _ => false)).1
      (List.replicate (U32 - 2) (Op.onChange true))).asyncCount = U32 - 1 := by
    rw [run_replicate_onChange _ _ _ (by decide)]
    decide
  have h2 : (run (construct (fun _ => 0) 2 true 0 false false 0 (fun _ => false)).1
      (List.replicate (U32 - 1) (Op.onChange true))).asyncCount = 0 := by
    rw [run_replicate_onChange _ _ _ (by decide)]
    decide
  rw [hrep, h1, h2]
  decide

/-- C9: destroying an interrupt-driven instance unregisters the service
routine attached to the interrupt id of its pin, after which no delivery for
that pin is possible; destroying a polling-only instance leaves every
registration unchanged. -/
theorem C9_destruct (pInt : Int → Int) (pin : Int) (hf : Bool) (d : Nat)
    (raw js : Bool) (jc : Nat) (reg reg2 : Registry) :
    (0 ≤ pInt pin →
      ((construct pInt pin hf d raw js jc reg).2 (pInt pin) = true) ∧
      (destruct pInt (construct pInt pin hf d raw js jc reg).1 reg2 (pInt pin) = false)) ∧
    (pInt pin < 0 →
      destruct pInt (construct pInt pin hf d raw js jc reg).1 reg2 = reg2) := by
  constructor
  · intro h
    rw [construct_interrupt pInt pin hf d raw js jc reg h]
    constructor
    · show attachInterrupt reg (pInt pin) (pInt pin) = true
      unfold attachInterrupt
      rw [if_pos rfl]
    · show detachInterrupt reg2 (pInt pin) (pInt pin) = false
      unfold detachInterrupt
      rw [if_pos ⟨h, rfl⟩]
  · intro h
    rw [construct_polling pInt pin hf d raw js jc reg (by omega)]
    show detachInterrupt reg2 (pInt pin) = reg2
    funext j
    unfold detachInterrupt
    rw [if_neg (fun hc => absurd hc.1 (by omega))]

/-- Witness for C9: a pin with interrupt id 3 and a polling-only pin. -/
theorem C9_destruct_witness :
    (destruct (fun _ => 3) (construct (fun _ => 3) 7 true 0 false false 0
        (fun _ => false)).1 (fun _ => true) 3 = false) ∧
    (destruct (fun _ => -1) (construct (fun _ => -1) 7 true 0 false false 0
        (fun _ => false)).1 (fun _ => true)) 5 = true :=
  ⟨((C9_destruct (fun _ => 3) 7 true 0 false false 0 (fun _ => false)
      (fun _ => true)).1 (by norm_num)).2,
   by rw [(C9_destruct (fun _ => -1) 7 true 0 false false 0 (fun _ => false)
      (fun _ => true)).2 (by norm_num)]⟩

end bridge

namespace bridge.meta

theorem expansion_apply : ∀ (n : Nat) (m : Nat → Map) (j : Nat),
    expansion m n j =
      if j ≤ n then (⟨(m j).data, (m j).functionData, some j⟩ : Map) else m j := by
  intro n
  induction n with
  | zero =>
    intro m j
    show setFunction m 0 j = _
    unfold setFunction
    rcases Nat.eq_zero_or_pos j with h0 | hp
    · rw [h0]
      simp
    · rw [if_neg (by omega), if_neg (by omega)]
  | succ n ih =>
    intro m j
    show expansion (setFunction m (n + 1)) n j = _
    rw [ih]
    unfold setFunction
    by_cases h1 : j ≤ n
    · have hne : ¬ j = n + 1 := by omega
      simp only [if_pos h1, if_pos (show j ≤ n + 1 by omega), if_neg hne]
    · by_cases h2 : j = n + 1
      · subst h2
        simp only [if_neg h1, if_pos rfl, if_pos (Nat.le_refl _)]
        simp
      · simp only [if_neg h1, if_neg h2, if_neg (show ¬ j ≤ n + 1 by omega)]

theorem store_function (m : Nat → Map) (i fd d j : Nat) :
    (store m i fd d j).function = (m j).function := by
  unfold store
  by_cases h : j = i
  · rw [if_pos h, h]
  · rw [if_neg h]

theorem store_ne (m : Nat → Map) (i fd d j : Nat) (h : ¬ j = i) :
    store m i fd d j = m j := by
  unfold store
  rw [if_neg h]

theorem store_self (m : Nat → Map) (i fd d : Nat) :
    store m i fd d i = ⟨d, some fd, (m i).function⟩ := by
  unfold store
  rw [if_pos rfl]

theorem Wrap_once (st : MetaState) (fd d : Nat) (h : st.once = true) :
    Wrap st fd d =
      (⟨st.uid + 1, store st.map st.uid fd d, true⟩, (st.map st.uid).function) := by
  unfold Wrap
  rw [h]
  simp only [if_true]
  rw [store_function]

theorem runWraps_spec : ∀ (regs : List (Nat × Nat)) (st : MetaState), st.once = true →
    ((runWraps st regs).1.once = true) ∧
    ((runWraps st regs).1.uid = st.uid + regs.length) ∧
    (∀ j, j < st.uid → (runWraps st regs).1.map j = st.map j) ∧
    (∀ j, ((runWraps st regs).1.map j).function = (st.map j).function) ∧
    (∀ i, (hi : i < regs.length) →
      (runWraps st regs).1.map (st.uid + i) =
        ⟨(regs.get ⟨i, hi⟩).2, some (regs.get ⟨i, hi⟩).1, (st.map (st.uid + i)).function⟩) ∧
    ((runWraps st regs).2 =
      (List.range regs.length).map (fun i => (st.map (st.uid + i)).function)) := by
  intro regs
  induction regs with
  | nil =>
    intro st h
    exact ⟨h, (Nat.add_zero _).symm, fun j _ => rfl, fun j => rfl,
      fun i hi => absurd hi (by simp), rfl⟩
  | cons r rest ih =>
    intro st h
    have hrun : runWraps st (r :: rest) =
        ((runWraps (⟨st.uid + 1, store st.map st.uid r.1 r.2, true⟩ : MetaState) rest).1,
         (st.map st.uid).function ::
          (runWraps (⟨st.uid + 1, store st.map st.uid r.1 r.2, true⟩ : MetaState) rest).2) := by
      show ((runWraps (Wrap st r.1 r.2).1 rest).1,
        (Wrap st r.1 r.2).2 :: (runWraps (Wrap st r.1 r.2).1 rest).2) = _
      rw [Wrap_once st r.1 r.2 h]
    have hh := ih (⟨st.uid + 1, store st.map st.uid r.1 r.2, true⟩ : MetaState) rfl
    rw [hrun]
    refine ⟨hh.1, ?_, ?_, ?_, ?_, ?_⟩
    · show _ = st.uid + (rest.length + 1)
      rw [hh.2.1]
      show st.uid + 1 + rest.length = _
      omega
    · intro j hj
      rw [hh.2.2.1 j (by show j < st.uid + 1; omega)]
      exact store_ne st.map st.uid r.1 r.2 j (by omega)
    · intro j
      rw [hh.2.2.2.1 j]
      exact store_function st.map st.uid r.1 r.2 j
    · intro i hi
      cases i with
      | zero =>
        show (runWraps (⟨st.uid + 1, store st.map st.uid r.1 r.2, true⟩ : MetaState)
            rest).1.map st.uid = (⟨r.2, some r.1, (st.map st.uid).function⟩ : Map)
        rw [hh.2.2.1 st.uid (by show st.uid < st.uid + 1; omega)]
        show store st.map st.uid r.1 r.2 st.uid = _
        rw [store_self]
      | succ i =>
        have hi2 : i < rest.length := by
          have := hi
          simp at this
          omega
        have hidx : st.uid + (i + 1) = st.uid + 1 + i := by omega
        rw [hidx]
        rw [hh.2.2.2.2.1 i hi2]
        show (⟨(rest.get ⟨i, hi2⟩).2, some (rest.get ⟨i, hi2⟩).1,
            (store st.map st.uid r.1 r.2 (st.uid + 1 + i)).function⟩ : Map) = _
        rw [store_function]
        show _ = (⟨((r :: rest).get ⟨i + 1, hi⟩).2, some ((r :: rest).get ⟨i + 1, hi⟩).1,
            (st.map (st.uid + 1 + i)).function⟩ : Map)
        rfl
    · rw [hh.2.2.2.2.2]
      show (st.map st.uid).function ::
          List.map (fun i => (store st.map st.uid r.1 r.2 (st.uid + 1 + i)).function)
            (List.range rest.length)
        = List.map (fun i => (st.map (st.uid + i)).function) (List.range (rest.length + 1))
      have hfun : (fun i => (store st.map st.uid r.1 r.2 (st.uid + 1 + i)).function)
          = (fun i => (st.map (st.uid + i)).function) ∘ Nat.succ := by
        funext i
        show (store st.map st.uid r.1 r.2 (st.uid + 1 + i)).function
          = (st.map (st.uid + (i + 1))).function
        rw [store_function, show st.uid + 1 + i = st.uid + (i + 1) from by omega]
      rw [hfun, List.range_succ_eq_map, List.map_cons, List.map_map]
      rfl

/-- The table state right after the one-time pre-generation has run. -/
def expandedInit : MetaState :=
  ⟨0, expansion (fun _ => Map.init) BRIDGE_MAX_WRAPPERS, true⟩

theorem Wrap_initial (fd d : Nat) :
    Wrap initialState fd d = Wrap expandedInit fd d := rfl

theorem runWraps_initial (regs : List (Nat × Nat)) (h : regs ≠ []) :
    runWraps initialState regs = runWraps expandedInit regs := by
  cases regs with
  | nil => exact absurd rfl h
  | cons r rest =>
    show ((runWraps (Wrap initialState r.1 r.2).1 rest).1,
        (Wrap initialState r.1 r.2).2 :: (runWraps (Wrap initialState r.1 r.2).1 rest).2)
      = ((runWraps (Wrap expandedInit r.1 r.2).1 rest).1,
        (Wrap expandedInit r.1 r.2).2 :: (runWraps (Wrap expandedInit r.1 r.2).1 rest).2)
    rw [Wrap_initial]

theorem expandedInit_function (j : Nat) (h : j ≤ BRIDGE_MAX_WRAPPERS) :
    (expandedInit.map j).function = some j := by
  show (expansion (fun _ => Map.init) BRIDGE_MAX_WRAPPERS j).function = some j
  rw [expansion_apply BRIDGE_MAX_WRAPPERS (fun _ => Map.init) j, if_pos h]

/-- C3: for at most `BRIDGE_MAX_WRAPPERS` registrations from process start,
each `Wrap` call stores the callback and token in the next unused slot — the
counter starts at 0 and increases by exactly one per call, never decreasing
or wrapping — the returned entry point of the i-th call is `Wrapper<i>`, and
invoking any returned entry point (a pure table read, hence independent of
invocation order) calls exactly the callback registered at its slot with
exactly the token registered there. -/
theorem C3_trampoline (regs : List (Nat × Nat))
    (hK : regs.length ≤ BRIDGE_MAX_WRAPPERS) :
    ((runWraps initialState regs).1.uid = regs.length) ∧
    (∀ j, j ≤ regs.length → (runWraps initialState (regs.take j)).1.uid = j) ∧
    ((runWraps initialState regs).2 = (List.range regs.length).map (fun i => some i)) ∧
    (∀ i, (hi : i < regs.length) →
      Wrapper (runWraps initialState regs).1 i =
        some ((regs.get ⟨i, hi⟩).1, (regs.get ⟨i, hi⟩).2)) := by
  have huid : ∀ (l : List (Nat × Nat)), (runWraps initialState l).1.uid = l.length := by
    intro l
    cases l with
    | nil => rfl
    | cons a as =>
      rw [runWraps_initial (a :: as) (by simp)]
      have hs := runWraps_spec (a :: as) expandedInit rfl
      rw [hs.2.1]
      show 0 + (as.length + 1) = as.length + 1
      omega
  refine ⟨huid regs, ?_, ?_, ?_⟩
  · intro j hj
    rw [huid (regs.take j)]
    rw [List.length_take]
    omega
  · cases regs with
    | nil => rfl
    | cons a as =>
      rw [runWraps_initial (a :: as) (by simp)]
      have hs := runWraps_spec (a :: as) expandedInit rfl
      rw [hs.2.2.2.2.2]
      refine List.map_congr_left ?_
      intro i hmem
      have hilt : i < (a :: as).length := by
        have := List.mem_range.mp hmem
        exact this
      show (expandedInit.map (0 + i)).function = some i
      rw [Nat.zero_add]
      exact expandedInit_function i (by omega)
  · intro i hi
    rw [runWraps_initial regs (by cases regs with
      | nil => exact absurd hi (by simp)
      | cons a as => simp)]
    have hs := runWraps_spec regs expandedInit rfl
    have hslot := hs.2.2.2.2.1 i hi
    unfold Wrapper
    rw [show ((runWraps expandedInit regs).1.map i)
        = (runWraps expandedInit regs).1.map (expandedInit.uid + i) from by
      rw [show expandedInit.uid = 0 from rfl, Nat.zero_add]]
    rw [hslot]

/-- Witness for C3 with two concrete registrations. -/
theorem C3_trampoline_witness :
    Wrapper (runWraps initialState [(5, 6), (7, 8)]).1 1 = some (7, 8) :=
  (C3_trampoline [(5, 6), (7, 8)]
    (by norm_num [BRIDGE_MAX_WRAPPERS])).2.2.2 1 (by norm_num)

/-- C4 (code bug): the one-time eager pre-generation runs
`expansion<BRIDGE_MAX_WRAPPERS>`, which also writes the table entry at index
`BRIDGE_MAX_WRAPPERS` itself — one past the last valid index of the
`BRIDGE_MAX_WRAPPERS`-element table — so not every index accessed during
pre-generation lies within the valid range. -/
theorem C4_pregeneration_oob :
    (expansion (fun _ => Map.init) BRIDGE_MAX_WRAPPERS BRIDGE_MAX_WRAPPERS ≠ Map.init) ∧
    ¬ (BRIDGE_MAX_WRAPPERS < BRIDGE_MAX_WRAPPERS) := by
  constructor
  · decide
  · decide

end bridge.meta
